import Mathlib

/-!
Verification development for the file-tree core of helix
(helix-view/src/file_tree.rs): an in-memory, lazily populated
representation of a filesystem subtree with a selection cursor.

Filesystem paths are modelled as lists of components; the external
directory lister (read_dir_sorted from helix-stdx, outside this
crate) is a parameter mapping a path to the listed entries
(name, is_dir), mirroring the DirEntry data actually consumed by
From<DirEntry> for FileTreeItem.
-/

set_option maxHeartbeats 1000000

/-- Model of std::path::PathBuf: a list of components. -/
abbrev FsPath := List String

/-- Model of Path::parent: none for an empty path, otherwise drop the
last component. -/
def FsPath.parent : FsPath → Option FsPath
  | [] => none
  | p@(_ :: _) => some p.dropLast

/-- Model of the data of a std::fs::DirEntry as consumed by
From<DirEntry> for FileTreeItem: the file name and whether the entry
is a directory. -/
structure DirEntry where
  name : String
  is_dir : Bool
deriving DecidableEq, Repr

/-- Model of the external read_dir_sorted collaborator: maps a
directory path to the entries it yields (hidden files disabled, as the
code always passes false). -/
abbrev Lister := FsPath → List DirEntry

/-- Embedding of struct FileTreeItem: name, path, is_dir, is_expanded,
children. Recursive through the children list, hence an inductive. -/
inductive FileTreeItem : Type where
  | mk (name : String) (path : FsPath) (is_dir : Bool) (is_expanded : Bool)
      (children : List FileTreeItem) : FileTreeItem

namespace FileTreeItem

/-- Field accessor for name. -/
def name : FileTreeItem → String
  | mk n _ _ _ _ => n

/-- Field accessor for path. -/
def path : FileTreeItem → FsPath
  | mk _ p _ _ _ => p

/-- Field accessor for is_dir. -/
def is_dir : FileTreeItem → Bool
  | mk _ _ d _ _ => d

/-- Field accessor for is_expanded. -/
def is_expanded : FileTreeItem → Bool
  | mk _ _ _ e _ => e

/-- Field accessor for children. -/
def children : FileTreeItem → List FileTreeItem
  | mk _ _ _ _ cs => cs

/-- Functional record update of the children field. -/
def withChildren : FileTreeItem → List FileTreeItem → FileTreeItem
  | mk n p d e _, cs => mk n p d e cs

mutual

/-- Decidable structural equality on items, modelling the derived
PartialEq of the Rust struct (all fields compared, children
recursively). -/
def decEqItem : (a b : FileTreeItem) → Decidable (a = b)
  | mk n1 p1 d1 e1 cs1, mk n2 p2 d2 e2 cs2 =>
    haveI : Decidable (cs1 = cs2) := decEqItemList cs1 cs2
    decidable_of_iff (n1 = n2 ∧ p1 = p2 ∧ d1 = d2 ∧ e1 = e2 ∧ cs1 = cs2) (by simp)

/-- Decidable pointwise structural equality on lists of items. -/
def decEqItemList : (as bs : List FileTreeItem) → Decidable (as = bs)
  | [], [] => isTrue rfl
  | _ :: _, [] => isFalse (by simp)
  | [], _ :: _ => isFalse (by simp)
  | a :: as, b :: bs =>
    haveI : Decidable (a = b) := decEqItem a b
    haveI : Decidable (as = bs) := decEqItemList as bs
    decidable_of_iff (a = b ∧ as = bs) (by simp)

end

instance instDecEq : DecidableEq FileTreeItem := decEqItem

/-- Embedding of FileTreeItem::new: a fresh, unexpanded, childless item. -/
def new (name : String) (path : FsPath) (is_dir : Bool) : FileTreeItem :=
  mk name path is_dir false []

/-- Embedding of FileTreeItem::root: a directory item that is expanded
from the start and carries the given children. -/
def root (name : String) (path : FsPath) (children : List FileTreeItem) : FileTreeItem :=
  mk name path true true children

/-- Embedding of From<DirEntry> for FileTreeItem: the item for a listed
entry of the directory at path dir; its path is dir joined with the
entry name, it starts unexpanded and childless. -/
def fromEntry (dir : FsPath) (en : DirEntry) : FileTreeItem :=
  new en.name (dir ++ [en.name]) en.is_dir

/-- Embedding of FileTreeItem::expand: mark expanded and replace the
children with the fresh listing of the item's own path, each entry
converted via From<DirEntry>. -/
def expand (L : Lister) : FileTreeItem → FileTreeItem
  | mk n p d _ _ => mk n p d true ((L p).map (fromEntry p))

/-- Embedding of FileTreeItem::collapse: mark not expanded and clear
the children. -/
def collapse : FileTreeItem → FileTreeItem
  | mk n p d _ _ => mk n p d false []

/-- Embedding of impl Ord for FileTreeItem: directories before files;
within the same kind, lowercased names compared lexicographically. -/
def cmp (a b : FileTreeItem) : Ordering :=
  let n := a.name.toLower
  let m := b.name.toLower
  if a.is_dir && b.is_dir then compare n m
  else if a.is_dir && !b.is_dir then Ordering.lt
  else if !a.is_dir && b.is_dir then Ordering.gt
  else compare n m

/-- Non-strict order induced by cmp: a is at or before b. -/
def le (a b : FileTreeItem) : Prop := cmp a b ≠ Ordering.gt

instance : DecidableRel le := fun a b => by
  unfold le; infer_instance

/-- Counterpart of cmp on raw directory entries, the ordering the
external read_dir_sorted collaborator is specified to deliver. -/
def entryCmp (a b : DirEntry) : Ordering :=
  let n := a.name.toLower
  let m := b.name.toLower
  if a.is_dir && b.is_dir then compare n m
  else if a.is_dir && !b.is_dir then Ordering.lt
  else if !a.is_dir && b.is_dir then Ordering.gt
  else compare n m

/-- Non-strict order induced by entryCmp. -/
def entryLe (a b : DirEntry) : Prop := entryCmp a b ≠ Ordering.gt

instance : DecidableRel entryLe := fun a b => by
  unfold entryLe; infer_instance

end FileTreeItem

open FileTreeItem

mutual

/-- Embedding of FileTree::flatten_ : pre-order flattening with depths,
with the exact branch structure of the source (childless items are
emitted alone, items with children are emitted followed by their
recursively flattened children at depth one greater). -/
def flatten_ : FileTreeItem → Nat → List (FileTreeItem × Nat)
  | t@(mk _ _ _ _ cs), depth =>
    if cs.isEmpty then [(t, depth)]
    else (t, depth) :: flattenList_ cs (depth + 1)

/-- Flattening of a list of siblings at a common depth, modelling the
extend-over-children loop of FileTree::flatten_. -/
def flattenList_ : List FileTreeItem → Nat → List (FileTreeItem × Nat)
  | [], _ => []
  | c :: cs, depth => flatten_ c depth ++ flattenList_ cs depth

end

mutual

/-- Plain pre-order node sequence: the node, then the pre-order
sequences of its children in stored order. -/
def preorder : FileTreeItem → List FileTreeItem
  | t@(mk _ _ _ _ cs) => t :: preorderList cs

/-- Pre-order node sequence of a list of siblings. -/
def preorderList : List FileTreeItem → List FileTreeItem
  | [] => []
  | c :: cs => preorder c ++ preorderList cs

end

mutual

/-- Embedding of FileTree::selected_ : walk the tree pre-order with a
decrementing counter; returns the found node (if any) together with
the final counter value, modelling the &mut usize argument. -/
def selected_ : FileTreeItem → Nat → Option FileTreeItem × Nat
  | t@(mk _ _ _ _ cs), n =>
    if n = 0 then (some t, n)
    else selectedList_ cs (n - 1)

/-- Counter-threading walk over a list of siblings, modelling the
for-loop of FileTree::selected_. -/
def selectedList_ : List FileTreeItem → Nat → Option FileTreeItem × Nat
  | [], n => (none, n)
  | c :: cs, n =>
    match selected_ c n with
    | (some r, n') => (some r, n')
    | (none, n') => selectedList_ cs n'

end

mutual

/-- Functional counterpart of FileTree::selected_mut_ followed by an
in-place update: walk the tree exactly as selected_ does and apply f to
the node the counter lands on, returning the updated tree (none when
the counter runs past the end) and the final counter value. -/
def selectedMod_ (f : FileTreeItem → FileTreeItem) :
    FileTreeItem → Nat → Option FileTreeItem × Nat
  | t@(mk _ _ _ _ cs), n =>
    if n = 0 then (some (f t), n)
    else
      match selectedModList_ f cs (n - 1) with
      | (some cs', n') => (some (t.withChildren cs'), n')
      | (none, n') => (none, n')

/-- Counter-threading update over a list of siblings, modelling the
for-loop of FileTree::selected_mut_. -/
def selectedModList_ (f : FileTreeItem → FileTreeItem) :
    List FileTreeItem → Nat → Option (List FileTreeItem) × Nat
  | [], n => (none, n)
  | c :: cs, n =>
    match selectedMod_ f c n with
    | (some c', n') => (some (c' :: cs), n')
    | (none, n') =>
      match selectedModList_ f cs n' with
      | (some cs', n'') => (some (c :: cs'), n'')
      | (none, n'') => (none, n'')

end

mutual

/-- Embedding of FileTree::find_with_path_ : first node in pre-order
whose path equals the given path (the node itself is checked before
its children). -/
def find_with_path_ : FileTreeItem → FsPath → Option FileTreeItem
  | t@(mk _ _ _ _ cs), p =>
    if t.path = p then some t else findWithPathList_ cs p

/-- Search over a list of siblings, modelling the for-loop of
FileTree::find_with_path_. -/
def findWithPathList_ : List FileTreeItem → FsPath → Option FileTreeItem
  | [], _ => none
  | c :: cs, p =>
    match find_with_path_ c p with
    | some r => some r
    | none => findWithPathList_ cs p

end

/-- Embedding of children.remove(children.iter().position(|c| *c == sel).unwrap()):
locate the first child structurally equal to sel and remove it,
returning the removed element and the remaining list; none models the
panic of the unwrap when no child matches. -/
def removeFirstEq (sel : FileTreeItem) (cs : List FileTreeItem) :
    Option (FileTreeItem × List FileTreeItem) :=
  match cs.findIdx? (fun c => c == sel) with
  | none => none
  | some i =>
    match cs[i]? with
    | none => none
    | some x => some (x, cs.eraseIdx i)

mutual

/-- Combined embedding of the mutating part of FileTree::take_selected:
find the first node (pre-order, node before children) whose path is pp
and remove from its children the first child equal to sel. Outer none:
no node with path pp (find_with_path returned None). some (none, t):
a node was found but no child equals sel, modelling the panic of the
position unwrap. some (some x, t'): x was removed, t' is the updated
tree. -/
def takeAt (pp : FsPath) (sel : FileTreeItem) :
    FileTreeItem → Option (Option FileTreeItem × FileTreeItem)
  | t@(mk n p d e cs) =>
    if t.path = pp then
      match removeFirstEq sel cs with
      | none => some (none, t)
      | some (x, cs') => some (some x, mk n p d e cs')
    else
      match takeAtList pp sel cs with
      | none => none
      | some (r, cs') => some (r, mk n p d e cs')

/-- Search-and-remove over a list of siblings for takeAt. -/
def takeAtList (pp : FsPath) (sel : FileTreeItem) :
    List FileTreeItem → Option (Option FileTreeItem × List FileTreeItem)
  | [] => none
  | c :: cs =>
    match takeAt pp sel c with
    | some (r, c') => some (r, c' :: cs)
    | none =>
      match takeAtList pp sel cs with
      | some (r, cs') => some (r, c :: cs')
      | none => none

end

mutual

/-- Surgical replacement: apply f to the first node in pre-order whose
path is pp (same search order as find_with_path_), leaving every other
node untouched; none when no node has path pp. Used to state locality
of take_selected. -/
def replaceAt (pp : FsPath) (f : FileTreeItem → FileTreeItem) :
    FileTreeItem → Option FileTreeItem
  | t@(mk n p d e cs) =>
    if t.path = pp then some (f t)
    else (replaceAtList pp f cs).map (mk n p d e)

/-- Replacement over a list of siblings for replaceAt. -/
def replaceAtList (pp : FsPath) (f : FileTreeItem → FileTreeItem) :
    List FileTreeItem → Option (List FileTreeItem)
  | [] => none
  | c :: cs =>
    match replaceAt pp f c with
    | some c' => some (c' :: cs)
    | none => (replaceAtList pp f cs).map (c :: ·)

end

mutual

/-- Flattening as the spec describes it (section 4.2): produce the
pair of the node and its depth, then recursively the flattenings of
the children in stored order at depth one greater; the root of each
call comes first. Written from the spec wording, to be compared with
the flatten_ embedding of the code. -/
def specFlatten : FileTreeItem → Nat → List (FileTreeItem × Nat)
  | t@(mk _ _ _ _ cs), depth => (t, depth) :: specFlattenList cs (depth + 1)

/-- Spec-level flattening of a sibling list at a common depth. -/
def specFlattenList : List FileTreeItem → Nat → List (FileTreeItem × Nat)
  | [], _ => []
  | c :: cs, depth => specFlatten c depth ++ specFlattenList cs depth

end

/-- Embedding of struct FileTree. The open field of the source is
spelled open_ because open is a Lean keyword. -/
structure FileTree where
  root : FileTreeItem
  selection : Nat
  open_ : Bool
  copied : Option FileTreeItem
deriving DecidableEq

namespace FileTree

/-- Embedding of FileTree::new, parametrized by the external
collaborators: the lister, the current working directory, and the
display name produced by fold_home_dir for it. The root is an expanded
directory whose children are the converted listing of cwd. -/
def new (L : Lister) (cwd : FsPath) (rootName : String) : FileTree :=
  { root := FileTreeItem.root rootName cwd ((L cwd).map (fromEntry cwd))
    selection := 0
    open_ := false
    copied := none }

/-- Embedding of FileTree::flatten_with_depth. -/
def flatten_with_depth (t : FileTree) : List (FileTreeItem × Nat) :=
  flatten_ t.root 0

/-- Embedding of FileTree::flatten: the flattening with depths dropped. -/
def flatten (t : FileTree) : List FileTreeItem :=
  (flatten_ t.root 0).map Prod.fst

/-- Embedding of FileTree::selected. -/
def selected (t : FileTree) : Option FileTreeItem :=
  (selected_ t.root t.selection).1

/-- Embedding of FileTree::find_with_path. -/
def find_with_path (t : FileTree) (p : FsPath) : Option FileTreeItem :=
  find_with_path_ t.root p

/-- Embedding of FileTree::take_selected. Outer none models a panic
(parent unwrap on an empty path, or position unwrap finding no equal
child); some (r, t') is the returned Option together with the tree
state after the call. -/
def take_selected (t : FileTree) : Option (Option FileTreeItem × FileTree) :=
  match t.selected with
  | none => some (none, t)
  | some sel =>
    match FsPath.parent sel.path with
    | none => none
    | some pp =>
      match takeAt pp sel t.root with
      | none => some (none, t)
      | some (none, _) => none
      | some (some x, root') => some (some x, { t with root := root' })

/-- Embedding of FileTree::move_up: saturating decrement. -/
def move_up (t : FileTree) : FileTree :=
  { t with selection := t.selection - 1 }

/-- Embedding of FileTree::move_down: increment only while strictly
below flatten().len() - 1. -/
def move_down (t : FileTree) : FileTree :=
  if t.selection < t.flatten.length - 1 then
    { t with selection := t.selection + 1 }
  else t

/-- Embedding of FileTree::goto_start. -/
def goto_start (t : FileTree) : FileTree :=
  { t with selection := 0 }

/-- Embedding of FileTree::goto_end. -/
def goto_end (t : FileTree) : FileTree :=
  { t with selection := t.flatten.length - 1 }

/-- Embedding of FileTree::reload: rebuild from scratch and force the
open flag. -/
def reload (L : Lister) (cwd : FsPath) (rootName : String) (_t : FileTree) : FileTree :=
  { new L cwd rootName with open_ := true }

/-- Modelled from the spec: the Tree-level expand of the selected node
(section 4.4 of the spec; the dispatching caller lives outside this
crate). Delegates to FileTreeItem::expand on the node selected_mut
resolves to; per the stated precondition of Node.expand, a
non-directory is left alone; out-of-range selection resolves to no
node and nothing happens. -/
def treeExpand (L : Lister) (t : FileTree) : FileTree :=
  match (selectedMod_ (fun x => if x.is_dir then x.expand L else x) t.root t.selection).1 with
  | some r => { t with root := r }
  | none => t

/-- Modelled from the spec: the Tree-level collapse of the selected
node (section 4.4 of the spec; the dispatching caller lives outside
this crate). Delegates to FileTreeItem::collapse on the node
selected_mut resolves to; collapse on a non-directory or
already-collapsed node is a no-op; out-of-range selection resolves to
no node and nothing happens. -/
def treeCollapse (t : FileTree) : FileTree :=
  match (selectedMod_ (fun x => if x.is_dir && x.is_expanded then x.collapse else x)
      t.root t.selection).1 with
  | some r => { t with root := r }
  | none => t

end FileTree

/-- AllSorted holds when every node of the subtree has its children
sorted under the ordering rule (cmp never answers gt on a consecutive
pair). -/
def AllSorted (t : FileTreeItem) : Prop :=
  ∀ x ∈ preorder t, x.children.Pairwise le

/-- Pointwise relation produced by one-node modification: the new
element keeps the name and kind of the old one and stays AllSorted. -/
def ModRel (c c' : FileTreeItem) : Prop :=
  c'.name = c.name ∧ c'.is_dir = c.is_dir ∧ (AllSorted c → AllSorted c')

instance (t : FileTreeItem) : Decidable (AllSorted t) := by
  unfold AllSorted; infer_instance

@[simp] theorem name_mk (n p d e cs) : name (mk n p d e cs) = n := rfl

@[simp] theorem path_mk (n p d e cs) : path (mk n p d e cs) = p := rfl

@[simp] theorem is_dir_mk (n p d e cs) : is_dir (mk n p d e cs) = d := rfl

@[simp] theorem is_expanded_mk (n p d e cs) : is_expanded (mk n p d e cs) = e := rfl

@[simp] theorem children_mk (n p d e cs) : children (mk n p d e cs) = cs := rfl

@[simp] theorem withChildren_mk (n p d e cs cs') :
    withChildren (mk n p d e cs) cs' = mk n p d e cs' := rfl

/-- Reachable states of a FileTree under the public operations, for a
fixed lister L: freshly constructed trees and everything obtainable
from them by navigation, expand or collapse of the selected node,
reload, and a successful take_selected. The working directory and the
folded root name may differ at each construction. -/
inductive Reachable (L : Lister) : FileTree → Prop
  | init (cwd : FsPath) (rootName : String) : Reachable L (FileTree.new L cwd rootName)
  | up {t} : Reachable L t → Reachable L t.move_up
  | down {t} : Reachable L t → Reachable L t.move_down
  | start {t} : Reachable L t → Reachable L t.goto_start
  | toEnd {t} : Reachable L t → Reachable L t.goto_end
  | exp {t} : Reachable L t → Reachable L (t.treeExpand L)
  | col {t} : Reachable L t → Reachable L t.treeCollapse
  | rel {t} (cwd : FsPath) (rootName : String) :
      Reachable L t → Reachable L (t.reload L cwd rootName)
  | take {t x t'} : Reachable L t → t.take_selected = some (some x, t') → Reachable L t'

/-! Basic equations for the mutually recursive functions. -/

@[simp] theorem preorder_mk (n p d e cs) :
    preorder (FileTreeItem.mk n p d e cs) = FileTreeItem.mk n p d e cs :: preorderList cs := by
  rw [preorder]

@[simp] theorem preorderList_nil : preorderList [] = [] := by
  rw [preorderList]

@[simp] theorem preorderList_cons (c cs) :
    preorderList (c :: cs) = preorder c ++ preorderList cs := by
  rw [preorderList]

theorem preorder_def (t : FileTreeItem) :
    preorder t = t :: preorderList t.children := by
  cases t; simp

@[simp] theorem preorder_length_pos (t : FileTreeItem) : 0 < (preorder t).length := by
  cases t; simp

theorem preorderList_append (l1 l2 : List FileTreeItem) :
    preorderList (l1 ++ l2) = preorderList l1 ++ preorderList l2 := by
  induction l1 with
  | nil => simp
  | cons c cs ih => simp [ih]

@[simp] theorem flattenList_nil (d : Nat) : flattenList_ [] d = [] := by
  rw [flattenList_]

@[simp] theorem flattenList_cons (c cs d) :
    flattenList_ (c :: cs) d = flatten_ c d ++ flattenList_ cs d := by
  rw [flattenList_]

@[simp] theorem flatten_mk (n p d e cs depth) :
    flatten_ (FileTreeItem.mk n p d e cs) depth =
      (FileTreeItem.mk n p d e cs, depth) :: flattenList_ cs (depth + 1) := by
  rw [flatten_]
  cases cs <;> simp

mutual

theorem flatten_map_fst : ∀ (t : FileTreeItem) (d : Nat),
    (flatten_ t d).map Prod.fst = preorder t
  | .mk n p d e cs, depth => by
    simp [flattenList_map_fst cs (depth + 1)]

theorem flattenList_map_fst : ∀ (cs : List FileTreeItem) (d : Nat),
    (flattenList_ cs d).map Prod.fst = preorderList cs
  | [], _ => by simp
  | c :: cs, d => by
    simp [flatten_map_fst c d, flattenList_map_fst cs d]

end

theorem flatten_eq_preorder (t : FileTree) : t.flatten = preorder t.root :=
  flatten_map_fst t.root 0

@[simp] theorem selected_mk (n p d e cs m) :
    selected_ (FileTreeItem.mk n p d e cs) m =
      if m = 0 then (some (FileTreeItem.mk n p d e cs), m)
      else selectedList_ cs (m - 1) := by
  rw [selected_]

@[simp] theorem selectedList_nil (m : Nat) : selectedList_ [] m = (none, m) := by
  rw [selectedList_]

theorem selectedList_cons (c cs m) :
    selectedList_ (c :: cs) m =
      match selected_ c m with
      | (some r, n') => (some r, n')
      | (none, n') => selectedList_ cs n' := by
  rw [selectedList_]

mutual

theorem selected_spec : ∀ (t : FileTreeItem) (n : Nat),
    (selected_ t n).1 = (preorder t)[n]? ∧
    ((preorder t).length ≤ n → (selected_ t n).2 = n - (preorder t).length)
  | .mk nm p d e cs, n => by
    by_cases h0 : n = 0
    · subst h0
      simp
    · obtain ⟨k, rfl⟩ := Nat.exists_eq_succ_of_ne_zero h0
      have ih := selectedList_spec cs k
      simp only [selected_mk, if_neg h0, preorder_mk, Nat.succ_sub_one,
        List.getElem?_cons_succ, List.length_cons]
      exact ⟨ih.1, fun h => by rw [ih.2 (by omega)]; omega⟩

theorem selectedList_spec : ∀ (cs : List FileTreeItem) (n : Nat),
    (selectedList_ cs n).1 = (preorderList cs)[n]? ∧
    ((preorderList cs).length ≤ n → (selectedList_ cs n).2 = n - (preorderList cs).length)
  | [], n => by simp
  | c :: cs, n => by
    have ihc := selected_spec c n
    rw [selectedList_cons]
    rcases hc : selected_ c n with ⟨o, n'⟩
    rw [hc] at ihc
    match o with
    | some r =>
      have hlt : n < (preorder c).length :=
        (List.getElem?_eq_some_iff.1 ihc.1.symm).1
      simp only [preorderList_cons, List.length_append]
      constructor
      · rw [List.getElem?_append_left hlt]
        exact ihc.1
      · intro h
        omega
    | none =>
      have hge : (preorder c).length ≤ n := by
        have := ihc.1.symm
        simpa [List.getElem?_eq_none_iff] using this
      have hn' : n' = n - (preorder c).length := ihc.2 hge
      have ihs := selectedList_spec cs n'
      simp only [preorderList_cons, List.length_append]
      constructor
      · rw [List.getElem?_append_right hge, ihs.1, hn']
      · intro h
        rw [ihs.2 (by omega)]
        omega

end

mutual

theorem selectedMod_none : ∀ (f : FileTreeItem → FileTreeItem) (t : FileTreeItem) (n : Nat),
    (preorder t).length ≤ n → selectedMod_ f t n = (none, n - (preorder t).length)
  | f, .mk nm p d e cs, n => fun h => by
    simp only [preorder_mk, List.length_cons] at h ⊢
    have ih := selectedModList_none f cs (n - 1) (by omega)
    rw [selectedMod_, if_neg (by omega), ih]
    have hc : n - 1 - (preorderList cs).length = n - ((preorderList cs).length + 1) := by
      omega
    rw [hc]

theorem selectedModList_none : ∀ (f : FileTreeItem → FileTreeItem)
    (cs : List FileTreeItem) (n : Nat),
    (preorderList cs).length ≤ n →
    selectedModList_ f cs n = (none, n - (preorderList cs).length)
  | _, [], n => fun _ => by
    rw [selectedModList_]
    simp
  | f, c :: cs, n => fun h => by
    simp only [preorderList_cons, List.length_append] at h ⊢
    have ihc := selectedMod_none f c n (by omega)
    have ihs := selectedModList_none f cs (n - (preorder c).length) (by omega)
    rw [selectedModList_]
    simp only [ihc, ihs]
    have hc : n - (preorder c).length - (preorderList cs).length =
        n - ((preorder c).length + (preorderList cs).length) := by omega
    rw [hc]

end

mutual

theorem selectedMod_found : ∀ (f : FileTreeItem → FileTreeItem) (t : FileTreeItem) (n : Nat),
    n < (preorder t).length →
    ∃ r, (selectedMod_ f t n).1 = some r ∧ n < (preorder r).length
  | f, .mk nm p d e cs, n => fun h => by
    by_cases h0 : n = 0
    · subst h0
      exact ⟨f (FileTreeItem.mk nm p d e cs), by rw [selectedMod_]; simp,
        preorder_length_pos _⟩
    · simp only [preorder_mk, List.length_cons] at h
      obtain ⟨cs', hcs', hlt⟩ := selectedModList_found f cs (n - 1) (by omega)
      rcases hm : selectedModList_ f cs (n - 1) with ⟨o, n'⟩
      rw [hm] at hcs'
      simp only at hcs'
      subst hcs'
      refine ⟨FileTreeItem.mk nm p d e cs', ?_, ?_⟩
      · rw [selectedMod_, if_neg h0, hm]
        simp
      · simp only [preorder_mk, List.length_cons]
        omega

theorem selectedModList_found : ∀ (f : FileTreeItem → FileTreeItem)
    (cs : List FileTreeItem) (n : Nat),
    n < (preorderList cs).length →
    ∃ cs', (selectedModList_ f cs n).1 = some cs' ∧ n < (preorderList cs').length
  | _, [], n => fun h => by simp at h
  | f, c :: cs, n => fun h => by
    simp only [preorderList_cons, List.length_append] at h
    by_cases hlt : n < (preorder c).length
    · obtain ⟨r, hr, hrlt⟩ := selectedMod_found f c n hlt
      rcases hm : selectedMod_ f c n with ⟨o, n'⟩
      rw [hm] at hr
      simp only at hr
      subst hr
      refine ⟨r :: cs, ?_, ?_⟩
      · rw [selectedModList_, hm]
      · simp only [preorderList_cons, List.length_append]
        omega
    · have hnone := selectedMod_none f c n (by omega)
      obtain ⟨cs', hcs', hclt⟩ := selectedModList_found f cs (n - (preorder c).length)
        (by omega)
      rcases hm : selectedModList_ f cs (n - (preorder c).length) with ⟨o, n'⟩
      rw [hm] at hcs'
      simp only at hcs'
      subst hcs'
      refine ⟨c :: cs', ?_, ?_⟩
      · rw [selectedModList_]
        simp only [hnone, hm]
      · simp only [preorderList_cons, List.length_append]
        omega

end

/-! Equations and basic facts for path search and removal. -/

theorem find_mk (n p d e cs pp) :
    find_with_path_ (FileTreeItem.mk n p d e cs) pp =
      if p = pp then some (FileTreeItem.mk n p d e cs) else findWithPathList_ cs pp := rfl

@[simp] theorem findList_nil (pp) : findWithPathList_ [] pp = none := rfl

theorem findList_cons (c cs pp) :
    findWithPathList_ (c :: cs) pp =
      match find_with_path_ c pp with
      | some r => some r
      | none => findWithPathList_ cs pp := rfl

theorem takeAt_mk (pp sel n p d e cs) :
    takeAt pp sel (FileTreeItem.mk n p d e cs) =
      if p = pp then
        match removeFirstEq sel cs with
        | none => some (none, FileTreeItem.mk n p d e cs)
        | some (x, cs') => some (some x, FileTreeItem.mk n p d e cs')
      else
        match takeAtList pp sel cs with
        | none => none
        | some (r, cs') => some (r, FileTreeItem.mk n p d e cs') := rfl

@[simp] theorem takeAtList_nil (pp sel) : takeAtList pp sel [] = none := rfl

theorem takeAtList_cons (pp sel c cs) :
    takeAtList pp sel (c :: cs) =
      match takeAt pp sel c with
      | some (r, c') => some (r, c' :: cs)
      | none =>
        match takeAtList pp sel cs with
        | some (r, cs') => some (r, c :: cs')
        | none => none := rfl

theorem replaceAt_mk (pp f n p d e cs) :
    replaceAt pp f (FileTreeItem.mk n p d e cs) =
      if p = pp then some (f (FileTreeItem.mk n p d e cs))
      else (replaceAtList pp f cs).map (FileTreeItem.mk n p d e) := rfl

@[simp] theorem replaceAtList_nil (pp f) : replaceAtList pp f [] = none := rfl

theorem replaceAtList_cons (pp f c cs) :
    replaceAtList pp f (c :: cs) =
      match replaceAt pp f c with
      | some c' => some (c' :: cs)
      | none => (replaceAtList pp f cs).map (c :: ·) := rfl

theorem removeFirstEq_of_not_mem {sel : FileTreeItem} {cs : List FileTreeItem}
    (h : sel ∉ cs) : removeFirstEq sel cs = none := by
  unfold removeFirstEq
  have hf : cs.findIdx? (fun x => x == sel) = none := by
    rw [List.findIdx?_eq_none_iff]
    intro x hx
    exact beq_false_of_ne (fun heq => h (heq ▸ hx))
  rw [hf]

theorem removeFirstEq_of_mem {sel : FileTreeItem} {cs : List FileTreeItem}
    (h : sel ∈ cs) : removeFirstEq sel cs = some (sel, cs.erase sel) := by
  induction cs with
  | nil => simp at h
  | cons c rest ih =>
    by_cases hc : c = sel
    · subst hc
      unfold removeFirstEq
      simp
    · have hrest : sel ∈ rest := by
        rcases List.mem_cons.1 h with h1 | h1
        · exact absurd h1.symm hc
        · exact h1
      have ihm := ih hrest
      have hbc : (c == sel) = false := beq_false_of_ne hc
      unfold removeFirstEq at ihm ⊢
      rcases hf : rest.findIdx? (fun x => x == sel) with _ | i
      · rw [hf] at ihm
        simp at ihm
      · rw [hf] at ihm
        rcases hg : rest[i]? with _ | x
        · simp [hg] at ihm
        · simp only [hg, Option.some.injEq, Prod.mk.injEq] at ihm
          obtain ⟨hx, he⟩ := ihm
          simp only [List.findIdx?_cons, hbc, if_false, List.findIdx?_succ, hf,
            Option.map_some', List.getElem?_cons_succ, hg, List.eraseIdx_cons_succ,
            he, hx, Bool.false_eq_true, reduceIte]
          rw [List.erase_cons_tail]
          simp [hbc]

theorem erase_of_mem_eq_eraseIdx {sel : FileTreeItem} {cs : List FileTreeItem} :
    sel ∈ cs → (cs.erase sel).length + 1 = cs.length := by
  intro h
  rw [List.length_erase_of_mem h]
  have := List.length_pos.2 (List.ne_nil_of_mem h)
  omega

mutual

theorem takeAt_none_iff : ∀ (t : FileTreeItem) (pp : FsPath) (sel : FileTreeItem),
    takeAt pp sel t = none ↔ find_with_path_ t pp = none
  | .mk n p d e cs, pp, sel => by
    rw [takeAt_mk, find_mk]
    by_cases hp : p = pp
    · rw [if_pos hp, if_pos hp]
      rcases hr : removeFirstEq sel cs with _ | ⟨x, cs'⟩ <;> simp
    · rw [if_neg hp, if_neg hp]
      have ihl := takeAtList_none_iff cs pp sel
      rcases hl : takeAtList pp sel cs with _ | ⟨r, cs'⟩
      · rw [hl] at ihl
        simp only [hl]
        simpa using ihl
      · rw [hl] at ihl
        simp only [hl]
        simp only [reduceCtorEq, false_iff]
        intro hfind
        exact absurd (ihl.2 hfind) (by simp)

theorem takeAtList_none_iff : ∀ (cs : List FileTreeItem) (pp : FsPath) (sel : FileTreeItem),
    takeAtList pp sel cs = none ↔ findWithPathList_ cs pp = none
  | [], pp, sel => by simp
  | c :: cs, pp, sel => by
    rw [takeAtList_cons, findList_cons]
    have ihc := takeAt_none_iff c pp sel
    have ihl := takeAtList_none_iff cs pp sel
    rcases hc : takeAt pp sel c with _ | ⟨r, c'⟩
    · rw [hc] at ihc
      have hfc : find_with_path_ c pp = none := ihc.1 rfl
      rw [hfc]
      rcases hl : takeAtList pp sel cs with _ | ⟨r, cs'⟩ <;> rw [hl] at ihl <;>
        simpa using ihl
    · rw [hc] at ihc
      have hfc : find_with_path_ c pp ≠ none := by
        intro hfind
        exact absurd (ihc.2 hfind) (by simp)
      rcases hfind : find_with_path_ c pp with _ | q
      · exact absurd hfind hfc
      · simp

theorem replaceAt_none_iff : ∀ (t : FileTreeItem) (pp : FsPath)
    (f : FileTreeItem → FileTreeItem),
    replaceAt pp f t = none ↔ find_with_path_ t pp = none
  | .mk n p d e cs, pp, f => by
    rw [replaceAt_mk, find_mk]
    by_cases hp : p = pp
    · rw [if_pos hp, if_pos hp]
      simp
    · rw [if_neg hp, if_neg hp]
      have ihl := replaceAtList_none_iff cs pp f
      rcases hl : replaceAtList pp f cs with _ | cs' <;> rw [hl] at ihl <;>
        simpa using ihl

theorem replaceAtList_none_iff : ∀ (cs : List FileTreeItem) (pp : FsPath)
    (f : FileTreeItem → FileTreeItem),
    replaceAtList pp f cs = none ↔ findWithPathList_ cs pp = none
  | [], pp, f => by simp
  | c :: cs, pp, f => by
    rw [replaceAtList_cons, findList_cons]
    have ihc := replaceAt_none_iff c pp f
    have ihl := replaceAtList_none_iff cs pp f
    rcases hc : replaceAt pp f c with _ | c'
    · rw [hc] at ihc
      rw [ihc.1 rfl]
      rcases hl : replaceAtList pp f cs with _ | cs' <;> rw [hl] at ihl <;>
        simpa using ihl
    · rw [hc] at ihc
      have hfc : find_with_path_ c pp ≠ none := by
        intro hfind
        exact absurd (ihc.2 hfind) (by simp)
      rcases hfind : find_with_path_ c pp with _ | q
      · exact absurd hfind hfc
      · simp

end

mutual

theorem takeAt_of_found : ∀ (t : FileTreeItem) (pp : FsPath) (sel p' : FileTreeItem),
    find_with_path_ t pp = some p' → sel ∈ p'.children →
    ∃ r, takeAt pp sel t = some (some sel, r) ∧
      replaceAt pp (fun q => q.withChildren (q.children.erase sel)) t = some r
  | .mk n p d e cs, pp, sel, p' => fun hfind hmem => by
    rw [find_mk] at hfind
    rw [takeAt_mk, replaceAt_mk]
    by_cases hp : p = pp
    · rw [if_pos hp] at hfind
      rw [if_pos hp, if_pos hp]
      obtain rfl : p' = FileTreeItem.mk n p d e cs := by simpa using hfind.symm
      simp only [children_mk] at hmem
      rw [removeFirstEq_of_mem hmem]
      exact ⟨FileTreeItem.mk n p d e (cs.erase sel), rfl, rfl⟩
    · rw [if_neg hp] at hfind
      rw [if_neg hp, if_neg hp]
      obtain ⟨cs', htake, hrep⟩ := takeAtList_of_found cs pp sel p' hfind hmem
      exact ⟨FileTreeItem.mk n p d e cs', by rw [htake], by rw [hrep]; rfl⟩

theorem takeAtList_of_found : ∀ (cs : List FileTreeItem) (pp : FsPath)
    (sel p' : FileTreeItem),
    findWithPathList_ cs pp = some p' → sel ∈ p'.children →
    ∃ cs', takeAtList pp sel cs = some (some sel, cs') ∧
      replaceAtList pp (fun q => q.withChildren (q.children.erase sel)) cs = some cs'
  | [], pp, sel, p' => fun hfind _ => by simp at hfind
  | c :: cs, pp, sel, p' => fun hfind hmem => by
    rw [findList_cons] at hfind
    rw [takeAtList_cons, replaceAtList_cons]
    rcases hc : find_with_path_ c pp with _ | q
    · rw [hc] at hfind
      have ht : takeAt pp sel c = none := (takeAt_none_iff c pp sel).2 hc
      have hr : replaceAt pp (fun q => q.withChildren (q.children.erase sel)) c = none :=
        (replaceAt_none_iff c pp _).2 hc
      obtain ⟨cs', htake, hrep⟩ := takeAtList_of_found cs pp sel p' hfind hmem
      refine ⟨c :: cs', ?_, ?_⟩
      · simp only [ht, htake]
      · simp only [hr, hrep, Option.map_some']
    · rw [hc] at hfind
      have hqp : q = p' := by simpa using hfind
      rw [hqp] at hc
      obtain ⟨r, htake, hrep⟩ := takeAt_of_found c pp sel p' hc hmem
      refine ⟨r :: cs, ?_, ?_⟩
      · simp only [htake]
      · simp only [hrep]

end

mutual

theorem find_mem_preorder : ∀ (t : FileTreeItem) (pp : FsPath) (q : FileTreeItem),
    find_with_path_ t pp = some q → q ∈ preorder t
  | .mk n p d e cs, pp, q => fun h => by
    rw [find_mk] at h
    by_cases hp : p = pp
    · rw [if_pos hp] at h
      obtain rfl : FileTreeItem.mk n p d e cs = q := by simpa using h
      simp
    · rw [if_neg hp] at h
      have := findList_mem_preorderList cs pp q h
      simp [this]

theorem findList_mem_preorderList : ∀ (cs : List FileTreeItem) (pp : FsPath)
    (q : FileTreeItem),
    findWithPathList_ cs pp = some q → q ∈ preorderList cs
  | [], _, _ => fun h => by simp at h
  | c :: cs, pp, q => fun h => by
    rw [findList_cons] at h
    rcases hc : find_with_path_ c pp with _ | r
    · rw [hc] at h
      have := findList_mem_preorderList cs pp q h
      simp [this]
    · rw [hc] at h
      have hrq : r = q := by simpa using h
      rw [hrq] at hc
      have := find_mem_preorder c pp q hc
      simp [this]

end

theorem sizeOf_children_lt : ∀ t : FileTreeItem, sizeOf t.children < sizeOf t
  | .mk n p d e cs => by
    simp only [children_mk, FileTreeItem.mk.sizeOf_spec]
    omega

mutual

theorem sizeOf_mem_preorder : ∀ (t x : FileTreeItem),
    x ∈ preorder t → sizeOf x ≤ sizeOf t
  | .mk n p d e cs, x => fun h => by
    rw [preorder_mk] at h
    rcases List.mem_cons.1 h with h1 | h1
    · subst h1
      exact le_refl _
    · have h2 := sizeOf_mem_preorderList cs x h1
      have h3 := sizeOf_children_lt (FileTreeItem.mk n p d e cs)
      simp only [children_mk] at h3
      omega

theorem sizeOf_mem_preorderList : ∀ (cs : List FileTreeItem) (x : FileTreeItem),
    x ∈ preorderList cs → sizeOf x ≤ sizeOf cs
  | [], x => fun h => by simp at h
  | c :: cs, x => fun h => by
    rw [preorderList_cons] at h
    have hsz : sizeOf (c :: cs) = 1 + sizeOf c + sizeOf cs := rfl
    rcases List.mem_append.1 h with h1 | h1
    · have := sizeOf_mem_preorder c x h1
      omega
    · have := sizeOf_mem_preorderList cs x h1
      omega

end

theorem sizeOf_child_lt {t c : FileTreeItem} (h : c ∈ t.children) :
    sizeOf c < sizeOf t :=
  lt_trans (List.sizeOf_lt_of_mem h) (sizeOf_children_lt t)

mutual

theorem takeAt_no_equal_child : ∀ (t : FileTreeItem) (pp : FsPath) (sel : FileTreeItem),
    (∀ q ∈ preorder t, q.path = pp → sel ∉ q.children) →
    takeAt pp sel t = none ∨ ∃ u, takeAt pp sel t = some (none, u)
  | .mk n p d e cs, pp, sel => fun h => by
    rw [takeAt_mk]
    by_cases hp : p = pp
    · rw [if_pos hp]
      have hnm : sel ∉ cs := by
        have := h (FileTreeItem.mk n p d e cs) (by simp) (by simpa using hp)
        simpa using this
      rw [removeFirstEq_of_not_mem hnm]
      exact Or.inr ⟨_, rfl⟩
    · rw [if_neg hp]
      have hlist := takeAtList_no_equal_child cs pp sel
        (fun q hq => h q (by simp [hq]))
      rcases hlist with hnone | ⟨u, hu⟩
      · rw [hnone]
        exact Or.inl rfl
      · rw [hu]
        exact Or.inr ⟨_, rfl⟩

theorem takeAtList_no_equal_child : ∀ (cs : List FileTreeItem) (pp : FsPath)
    (sel : FileTreeItem),
    (∀ q ∈ preorderList cs, q.path = pp → sel ∉ q.children) →
    takeAtList pp sel cs = none ∨ ∃ u, takeAtList pp sel cs = some (none, u)
  | [], _, _ => fun _ => Or.inl rfl
  | c :: cs, pp, sel => fun h => by
    rw [takeAtList_cons]
    have hc := takeAt_no_equal_child c pp sel (fun q hq => h q (by simp [hq]))
    rcases hc with hnone | ⟨u, hu⟩
    · rw [hnone]
      have hl := takeAtList_no_equal_child cs pp sel (fun q hq => h q (by simp [hq]))
      rcases hl with hln | ⟨u, hul⟩
      · rw [hln]
        exact Or.inl rfl
      · rw [hul]
        exact Or.inr ⟨_, rfl⟩
    · rw [hu]
      exact Or.inr ⟨_, rfl⟩

end

theorem parent_ne {p pp : FsPath} (h : FsPath.parent p = some pp) : pp ≠ p := by
  cases p with
  | nil => simp [FsPath.parent] at h
  | cons a as =>
    simp only [FsPath.parent, Option.some.injEq] at h
    subst h
    intro heq
    have hl := congrArg List.length heq
    simp only [List.length_dropLast, List.length_cons] at hl
    omega

/-! Sortedness invariant: every children list in the tree is sorted
under the Ord comparator of FileTreeItem. -/


theorem mem_preorderList {x : FileTreeItem} : ∀ {cs : List FileTreeItem},
    x ∈ preorderList cs ↔ ∃ c ∈ cs, x ∈ preorder c := by
  intro cs
  induction cs with
  | nil => simp
  | cons c cs ih =>
    simp only [preorderList_cons, List.mem_append, ih, List.mem_cons]
    constructor
    · rintro (h | ⟨c', hc', hx⟩)
      · exact ⟨c, Or.inl rfl, h⟩
      · exact ⟨c', Or.inr hc', hx⟩
    · rintro ⟨c', hc' | hc', hx⟩
      · subst hc'
        exact Or.inl hx
      · exact Or.inr ⟨c', hc', hx⟩

theorem allSorted_mk {n p d e cs} :
    AllSorted (FileTreeItem.mk n p d e cs) ↔
      cs.Pairwise le ∧ ∀ c ∈ cs, AllSorted c := by
  unfold AllSorted
  simp only [preorder_mk, List.mem_cons]
  constructor
  · intro h
    refine ⟨by simpa using h _ (Or.inl rfl), ?_⟩
    intro c hc x hx
    exact h x (Or.inr (mem_preorderList.2 ⟨c, hc, hx⟩))
  · rintro ⟨hpw, hall⟩ x hx
    rcases hx with rfl | hx
    · simpa using hpw
    · obtain ⟨c, hc, hx⟩ := mem_preorderList.1 hx
      exact hall c hc x hx

theorem cmp_congr {a a' b b' : FileTreeItem} (h1 : a'.name = a.name)
    (h2 : a'.is_dir = a.is_dir) (h3 : b'.name = b.name) (h4 : b'.is_dir = b.is_dir) :
    FileTreeItem.cmp a' b' = FileTreeItem.cmp a b := by
  unfold FileTreeItem.cmp
  rw [h1, h2, h3, h4]

theorem forall₂_rel_mem_right {R : FileTreeItem → FileTreeItem → Prop} :
    ∀ {as as' : List FileTreeItem}, List.Forall₂ R as as' →
    ∀ b' ∈ as', ∃ b ∈ as, R b b' := by
  intro as as' h
  induction h with
  | nil => simp
  | cons ha htail ih =>
    intro b' hb'
    rcases List.mem_cons.1 hb' with rfl | hb'
    · exact ⟨_, List.mem_cons_self _ _, ha⟩
    · obtain ⟨b, hb, hr⟩ := ih b' hb'
      exact ⟨b, List.mem_cons_of_mem _ hb, hr⟩


theorem pairwise_transfer : ∀ {as as' : List FileTreeItem},
    List.Forall₂ ModRel as as' → as.Pairwise le → as'.Pairwise le := by
  intro as as' h
  induction h with
  | nil => intro _; exact List.Pairwise.nil
  | cons ha htail ih =>
    intro hp
    rcases List.pairwise_cons.1 hp with ⟨hhead, htl⟩
    refine List.pairwise_cons.2 ⟨?_, ih htl⟩
    intro b' hb'
    obtain ⟨b, hb, hr⟩ := forall₂_rel_mem_right htail b' hb'
    have hle : le _ b := hhead b hb
    unfold FileTreeItem.le at hle ⊢
    rw [cmp_congr ha.1 ha.2.1 hr.1 hr.2.1]
    exact hle

theorem forall₂_allSorted : ∀ {as as' : List FileTreeItem},
    List.Forall₂ ModRel as as' → (∀ c ∈ as, AllSorted c) → ∀ c' ∈ as', AllSorted c' := by
  intro as as' h
  induction h with
  | nil => simp
  | cons ha htail ih =>
    intro hall c' hc'
    rcases List.mem_cons.1 hc' with rfl | hc'
    · exact ha.2.2 (hall _ (List.mem_cons_self _ _))
    · exact ih (fun c hc => hall c (List.mem_cons_of_mem _ hc)) c' hc'

theorem modRel_refl (c : FileTreeItem) : ModRel c c := ⟨rfl, rfl, id⟩

theorem forall₂_modRel_refl (cs : List FileTreeItem) : List.Forall₂ ModRel cs cs :=
  List.forall₂_same.2 (fun c _ => modRel_refl c)

theorem allSorted_leaf (n : String) (p : FsPath) (d : Bool) :
    AllSorted (FileTreeItem.new n p d) := by
  unfold FileTreeItem.new
  rw [allSorted_mk]
  simp

theorem cmp_fromEntry (dir : FsPath) (a b : DirEntry) :
    cmp (fromEntry dir a) (fromEntry dir b) = entryCmp a b := rfl

theorem pairwise_map_fromEntry {dir : FsPath} {es : List DirEntry}
    (h : es.Pairwise entryLe) : ((es.map (fromEntry dir)).Pairwise le) := by
  rw [List.pairwise_map]
  refine h.imp ?_
  intro a b hab
  unfold FileTreeItem.le
  rw [cmp_fromEntry]
  exact hab

theorem allSorted_listing {L : Lister}
    (dir : FsPath) : ∀ c ∈ (L dir).map (fromEntry dir), AllSorted c := by
  intro c hc
  obtain ⟨en, _, rfl⟩ := List.mem_map.1 hc
  exact allSorted_leaf _ _ _

theorem allSorted_expand {L : Lister} (hL : ∀ p, (L p).Pairwise entryLe)
    (x : FileTreeItem) : AllSorted (x.expand L) := by
  cases x with
  | mk n p d e cs =>
    unfold FileTreeItem.expand
    rw [allSorted_mk]
    exact ⟨pairwise_map_fromEntry (hL p), allSorted_listing p⟩

theorem allSorted_collapse (x : FileTreeItem) : AllSorted x.collapse := by
  cases x with
  | mk n p d e cs =>
    unfold FileTreeItem.collapse
    rw [allSorted_mk]
    simp

theorem expand_name (L : Lister) (x : FileTreeItem) : (x.expand L).name = x.name := by
  cases x
  rfl

theorem expand_is_dir (L : Lister) (x : FileTreeItem) :
    (x.expand L).is_dir = x.is_dir := by
  cases x
  rfl

theorem collapse_name (x : FileTreeItem) : x.collapse.name = x.name := by
  cases x
  rfl

theorem collapse_is_dir (x : FileTreeItem) : x.collapse.is_dir = x.is_dir := by
  cases x
  rfl

mutual

theorem selectedMod_good : ∀ (f : FileTreeItem → FileTreeItem)
    (hn : ∀ x, (f x).name = x.name) (hd : ∀ x, (f x).is_dir = x.is_dir)
    (hs : ∀ x, AllSorted x → AllSorted (f x))
    (t : FileTreeItem) (n : Nat) (r : FileTreeItem),
    (selectedMod_ f t n).1 = some r → ModRel t r
  | f, hn, hd, hs, .mk nm p d e cs, n, r => fun hr => by
    by_cases h0 : n = 0
    · subst h0
      rw [selectedMod_] at hr
      simp only [if_true, reduceIte, Option.some.injEq] at hr
      subst hr
      exact ⟨hn _, hd _, hs _⟩
    · rw [selectedMod_, if_neg h0] at hr
      rcases hm : selectedModList_ f cs (n - 1) with ⟨_ | cs', n'⟩
      · rw [hm] at hr
        simp at hr
      · rw [hm] at hr
        simp only [withChildren_mk, Option.some.injEq] at hr
        subst hr
        have hfa := selectedModList_good f hn hd hs cs (n - 1) cs' (by rw [hm])
        refine ⟨by simp, by simp, ?_⟩
        intro hAS
        rcases allSorted_mk.1 hAS with ⟨hpw, hall⟩
        exact allSorted_mk.2 ⟨pairwise_transfer hfa hpw, forall₂_allSorted hfa hall⟩

theorem selectedModList_good : ∀ (f : FileTreeItem → FileTreeItem)
    (hn : ∀ x, (f x).name = x.name) (hd : ∀ x, (f x).is_dir = x.is_dir)
    (hs : ∀ x, AllSorted x → AllSorted (f x))
    (cs : List FileTreeItem) (n : Nat) (cs' : List FileTreeItem),
    (selectedModList_ f cs n).1 = some cs' → List.Forall₂ ModRel cs cs'
  | f, hn, hd, hs, [], n, cs' => fun h => by
    rw [selectedModList_] at h
    simp at h
  | f, hn, hd, hs, c :: cs, n, cs' => fun h => by
    rw [selectedModList_] at h
    rcases hm : selectedMod_ f c n with ⟨_ | c', n'⟩
    · rw [hm] at h
      rcases hm2 : selectedModList_ f cs n' with ⟨_ | cs2, n2⟩
      · simp only [hm2] at h
        simp at h
      · simp only [hm2, Option.some.injEq] at h
        subst h
        exact List.Forall₂.cons (modRel_refl c)
          (selectedModList_good f hn hd hs cs n' cs2 (by rw [hm2]))
    · rw [hm] at h
      simp only [Option.some.injEq] at h
      subst h
      exact List.Forall₂.cons (selectedMod_good f hn hd hs c n c' (by rw [hm]))
        (forall₂_modRel_refl cs)

end

theorem removeFirstEq_sublist {sel x : FileTreeItem} {cs cs' : List FileTreeItem}
    (hrm : removeFirstEq sel cs = some (x, cs')) : List.Sublist cs' cs := by
  unfold removeFirstEq at hrm
  rcases hf : cs.findIdx? (fun y => y == sel) with _ | i
  · rw [hf] at hrm
    simp at hrm
  · rw [hf] at hrm
    rcases hg : cs[i]? with _ | y
    · simp [hg] at hrm
    · simp only [hg, Option.some.injEq, Prod.mk.injEq] at hrm
      rw [← hrm.2]
      exact List.eraseIdx_sublist cs i

mutual

theorem takeAt_good : ∀ (pp : FsPath) (sel : FileTreeItem) (t : FileTreeItem)
    (r : Option FileTreeItem) (u : FileTreeItem),
    takeAt pp sel t = some (r, u) → ModRel t u
  | pp, sel, .mk n p d e cs, r, u => fun h => by
    rw [takeAt_mk] at h
    by_cases hp : p = pp
    · rw [if_pos hp] at h
      rcases hrm : removeFirstEq sel cs with _ | ⟨x, cs'⟩
      · rw [hrm] at h
        simp only [Option.some.injEq, Prod.mk.injEq] at h
        rw [← h.2]
        exact modRel_refl _
      · rw [hrm] at h
        simp only [Option.some.injEq, Prod.mk.injEq] at h
        rw [← h.2]
        refine ⟨by simp, by simp, ?_⟩
        intro hAS
        rcases allSorted_mk.1 hAS with ⟨hpw, hall⟩
        have hsub := removeFirstEq_sublist hrm
        exact allSorted_mk.2 ⟨hpw.sublist hsub,
          fun c hc => hall c (hsub.subset hc)⟩
    · rw [if_neg hp] at h
      rcases hl : takeAtList pp sel cs with _ | ⟨r2, cs'⟩
      · rw [hl] at h
        simp at h
      · rw [hl] at h
        simp only [Option.some.injEq, Prod.mk.injEq] at h
        rw [← h.2]
        have hfa := takeAtList_good pp sel cs r2 cs' hl
        refine ⟨by simp, by simp, ?_⟩
        intro hAS
        rcases allSorted_mk.1 hAS with ⟨hpw, hall⟩
        exact allSorted_mk.2 ⟨pairwise_transfer hfa hpw, forall₂_allSorted hfa hall⟩

theorem takeAtList_good : ∀ (pp : FsPath) (sel : FileTreeItem)
    (cs : List FileTreeItem) (r : Option FileTreeItem) (cs' : List FileTreeItem),
    takeAtList pp sel cs = some (r, cs') → List.Forall₂ ModRel cs cs'
  | pp, sel, [], r, cs' => fun h => by simp at h
  | pp, sel, c :: cs, r, cs' => fun h => by
    rw [takeAtList_cons] at h
    rcases hc : takeAt pp sel c with _ | ⟨r2, c'⟩
    · rw [hc] at h
      rcases hl : takeAtList pp sel cs with _ | ⟨r3, cs2⟩
      · simp only [hl] at h
        simp at h
      · simp only [hl, Option.some.injEq, Prod.mk.injEq] at h
        rw [← h.2]
        exact List.Forall₂.cons (modRel_refl c) (takeAtList_good pp sel cs r3 cs2 hl)
    · rw [hc] at h
      simp only [Option.some.injEq, Prod.mk.injEq] at h
      rw [← h.2]
      exact List.Forall₂.cons (takeAt_good pp sel c r2 c' hc) (forall₂_modRel_refl cs)

end

theorem expandF_name (L : Lister) (x : FileTreeItem) :
    (if x.is_dir then x.expand L else x).name = x.name := by
  by_cases h : x.is_dir <;> simp [h, expand_name]

theorem expandF_is_dir (L : Lister) (x : FileTreeItem) :
    (if x.is_dir then x.expand L else x).is_dir = x.is_dir := by
  by_cases h : x.is_dir <;> simp [h, expand_is_dir]

theorem expandF_allSorted {L : Lister} (hL : ∀ p, (L p).Pairwise entryLe)
    (x : FileTreeItem) (hx : AllSorted x) :
    AllSorted (if x.is_dir then x.expand L else x) := by
  by_cases h : x.is_dir
  · simpa [h] using allSorted_expand hL x
  · simpa [h] using hx

theorem collapseF_name (x : FileTreeItem) :
    (if x.is_dir && x.is_expanded then x.collapse else x).name = x.name := by
  by_cases h : x.is_dir && x.is_expanded <;> simp [h, collapse_name]

theorem collapseF_is_dir (x : FileTreeItem) :
    (if x.is_dir && x.is_expanded then x.collapse else x).is_dir = x.is_dir := by
  by_cases h : x.is_dir && x.is_expanded <;> simp [h, collapse_is_dir]

theorem collapseF_allSorted (x : FileTreeItem) (hx : AllSorted x) :
    AllSorted (if x.is_dir && x.is_expanded then x.collapse else x) := by
  by_cases h : x.is_dir && x.is_expanded
  · simpa [h] using allSorted_collapse x
  · simpa [h] using hx

theorem new_root_allSorted {L : Lister} (hL : ∀ p, (L p).Pairwise entryLe)
    (cwd : FsPath) (rootName : String) :
    AllSorted (FileTree.new L cwd rootName).root := by
  unfold FileTree.new FileTreeItem.root
  exact allSorted_mk.2 ⟨pairwise_map_fromEntry (hL cwd), allSorted_listing cwd⟩

theorem reachable_allSorted {L : Lister} (hL : ∀ p, (L p).Pairwise entryLe)
    {t : FileTree} (h : Reachable L t) : AllSorted t.root := by
  induction h with
  | init cwd rootName => exact new_root_allSorted hL cwd rootName
  | up h ih => exact ih
  | down h ih =>
    unfold FileTree.move_down
    split <;> exact ih
  | start h ih => exact ih
  | toEnd h ih => exact ih
  | @exp t h ih =>
    unfold FileTree.treeExpand
    rcases hm : (selectedMod_ (fun x => if x.is_dir then x.expand L else x)
        t.root t.selection).1 with _ | r
    · exact ih
    · exact (selectedMod_good _ (expandF_name L) (expandF_is_dir L)
        (expandF_allSorted hL) t.root t.selection r hm).2.2 ih
  | @col t h ih =>
    unfold FileTree.treeCollapse
    rcases hm : (selectedMod_ (fun x => if x.is_dir && x.is_expanded then x.collapse else x)
        t.root t.selection).1 with _ | r
    · exact ih
    · exact (selectedMod_good _ collapseF_name collapseF_is_dir
        collapseF_allSorted t.root t.selection r hm).2.2 ih
  | rel cwd rootName h ih => exact new_root_allSorted hL cwd rootName
  | @take t x t' h htk ih =>
    unfold FileTree.take_selected at htk
    rcases hsel : t.selected with _ | sel
    · simp only [hsel] at htk
      simp at htk
    · simp only [hsel] at htk
      rcases hpar : FsPath.parent sel.path with _ | pp
      · simp only [hpar] at htk
        exact absurd htk (by simp)
      · simp only [hpar] at htk
        rcases htka : takeAt pp sel t.root with _ | ⟨_ | x2, root'⟩
        · simp only [htka] at htk
          simp at htk
        · simp only [htka] at htk
          exact absurd htk (by simp)
        · simp only [htka, Option.some.injEq, Prod.mk.injEq] at htk
          obtain ⟨hx2, ht'⟩ := htk
          rw [← ht']
          exact (takeAt_good pp sel t.root (some x2) root' htka).2.2 ih

theorem selectedMod_none_iff (f : FileTreeItem → FileTreeItem) (t : FileTreeItem)
    (n : Nat) : (selectedMod_ f t n).1 = none ↔ (preorder t).length ≤ n := by
  constructor
  · intro h
    by_contra hlt
    push_neg at hlt
    obtain ⟨r, hr, _⟩ := selectedMod_found f t n hlt
    rw [h] at hr
    exact absurd hr (by simp)
  · intro h
    rw [selectedMod_none f t n h]

theorem treeExpand_sel_lt (L : Lister) (t : FileTree)
    (h : t.selection < (preorder t.root).length) :
    (t.treeExpand L).selection < (preorder (t.treeExpand L).root).length := by
  unfold FileTree.treeExpand
  obtain ⟨r, hr, hlt⟩ := selectedMod_found
    (fun x => if x.is_dir then x.expand L else x) t.root t.selection h
  rcases hm : (selectedMod_ (fun x => if x.is_dir then x.expand L else x)
      t.root t.selection).1 with _ | r2
  · rw [hm] at hr
    exact absurd hr (by simp)
  · rw [hm] at hr
    obtain rfl : r2 = r := by simpa using hr
    exact hlt

theorem treeCollapse_sel_lt (t : FileTree)
    (h : t.selection < (preorder t.root).length) :
    t.treeCollapse.selection < (preorder t.treeCollapse.root).length := by
  unfold FileTree.treeCollapse
  obtain ⟨r, hr, hlt⟩ := selectedMod_found
    (fun x => if x.is_dir && x.is_expanded then x.collapse else x) t.root t.selection h
  rcases hm : (selectedMod_ (fun x => if x.is_dir && x.is_expanded then x.collapse else x)
      t.root t.selection).1 with _ | r2
  · rw [hm] at hr
    exact absurd hr (by simp)
  · rw [hm] at hr
    obtain rfl : r2 = r := by simpa using hr
    exact hlt

mutual

theorem flatten_eq_spec : ∀ (t : FileTreeItem) (d : Nat), flatten_ t d = specFlatten t d
  | .mk n p d e cs, depth => by
    rw [flatten_mk, specFlatten, flattenList_eq_spec cs (depth + 1)]

theorem flattenList_eq_spec : ∀ (cs : List FileTreeItem) (d : Nat),
    flattenList_ cs d = specFlattenList cs d
  | [], d => by
    rw [specFlattenList]
    simp
  | c :: cs, d => by
    rw [flattenList_cons, specFlattenList, flatten_eq_spec c d, flattenList_eq_spec cs d]

end

/-! Claim theorems. -/

/-- C5: flatten_with_depth is the depth-first pre-order sequence of the
node graph: it equals the spec-level recursion that emits the node and
then its children blocks in stored order with depth incremented by one
per level; its first element is the root at depth 0; and flatten is
its projection to nodes. -/
theorem c5_flatten_with_depth_is_preorder (t : FileTree) :
    t.flatten_with_depth = specFlatten t.root 0 ∧
    t.flatten_with_depth.head? = some (t.root, 0) ∧
    t.flatten = t.flatten_with_depth.map Prod.fst := by
  refine ⟨flatten_eq_spec t.root 0, ?_, rfl⟩
  show (flatten_ t.root 0).head? = some (t.root, 0)
  rcases hroot : t.root with ⟨n, p, d, e, cs⟩
  rw [flatten_mk]
  rfl

/-- C6: on the functional embedding with a fixed lister (the on-disk
contents unchanged between the calls), expand then collapse then
expand equals a single expand, and collapse always leaves is_expanded
false with empty children. -/
theorem c6_expand_collapse_expand (L : Lister) (x : FileTreeItem) :
    ((x.expand L).collapse).expand L = x.expand L ∧
    x.collapse.is_expanded = false ∧
    x.collapse.children = [] ∧
    (((x.expand L).collapse).expand L).children = (x.expand L).children := by
  cases x with
  | mk n p d e cs => exact ⟨rfl, rfl, rfl, rfl⟩

/-- C10: reload resets the copied clipboard slot to none for every
tree, whatever was held there. -/
theorem c10_reload_clears_copied (L : Lister) (cwd : FsPath) (rootName : String)
    (t : FileTree) : (t.reload L cwd rootName).copied = none := rfl

/-- C2 counterexample: a tree whose selection (1) is at the length of
the flattening (root only, length 1) makes selected() return none; it
does not clamp and return a node as the claim states. -/
theorem c2_counterexample :
    FileTree.selected { root := FileTreeItem.mk "r" ["r"] true true [],
                        selection := 1, open_ := false, copied := none } = none ∧
    (FileTree.flatten { root := FileTreeItem.mk "r" ["r"] true true [],
                        selection := 1, open_ := false, copied := none }).length = 1 := by
  decide

/-- C2 amended: selected() resolves the selection index against the
pre-order flattening without clamping: it returns the entry at that
index when the index is in range and none when the index is at or
beyond the length of the flattening, and the selected_mut_ walk finds
a node exactly under the same condition. -/
theorem c2_amended_selected_no_clamp (t : FileTree) (f : FileTreeItem → FileTreeItem) :
    t.selected = (preorder t.root)[t.selection]? ∧
    (t.selected = none ↔ t.flatten.length ≤ t.selection) ∧
    ((selectedMod_ f t.root t.selection).1 = none ↔ t.flatten.length ≤ t.selection) := by
  have h1 : t.selected = (preorder t.root)[t.selection]? :=
    (selected_spec t.root t.selection).1
  refine ⟨h1, ?_, ?_⟩
  · rw [h1, flatten_eq_preorder]
    exact List.getElem?_eq_none_iff
  · rw [flatten_eq_preorder]
    exact selectedMod_none_iff f t.root t.selection

/-- C9: whenever take_selected returns the None value without
panicking (no selected node, or the parent path is not found in the
tree), the tree is left completely unchanged in all four fields. -/
theorem c9_take_none_leaves_unchanged (t t' : FileTree)
    (h : t.take_selected = some (none, t')) :
    t'.root = t.root ∧ t'.selection = t.selection ∧ t'.open_ = t.open_ ∧
      t'.copied = t.copied := by
  unfold FileTree.take_selected at h
  rcases hsel : t.selected with _ | sel
  · simp only [hsel] at h
    obtain rfl : t = t' := by simpa using h
    exact ⟨rfl, rfl, rfl, rfl⟩
  · simp only [hsel] at h
    rcases hpar : FsPath.parent sel.path with _ | pp
    · simp only [hpar] at h
      exact absurd h (by simp)
    · simp only [hpar] at h
      rcases htka : takeAt pp sel t.root with _ | ⟨_ | x2, root'⟩
      · simp only [htka] at h
        obtain rfl : t = t' := by simpa using h
        exact ⟨rfl, rfl, rfl, rfl⟩
      · simp only [htka] at h
        exact absurd h (by simp)
      · simp only [htka] at h
        exact absurd h (by simp)

/-- Witness for C9: a concrete tree whose root is selected and whose
parent path is not in the tree; take_selected returns the None value
there, and the theorem yields the four field equalities. -/
theorem c9_witness :
    FileTree.take_selected { root := FileTreeItem.mk "r" ["r"] true true [],
                             selection := 0, open_ := false, copied := none } =
      some (none, { root := FileTreeItem.mk "r" ["r"] true true [],
                    selection := 0, open_ := false, copied := none }) ∧
    (FileTree.root { root := FileTreeItem.mk "r" ["r"] true true [],
                     selection := 0, open_ := false, copied := none } =
       FileTree.root { root := FileTreeItem.mk "r" ["r"] true true [],
                       selection := 0, open_ := false, copied := none } ∧
     FileTree.selection { root := FileTreeItem.mk "r" ["r"] true true [],
                          selection := 0, open_ := false, copied := none } =
       FileTree.selection { root := FileTreeItem.mk "r" ["r"] true true [],
                            selection := 0, open_ := false, copied := none } ∧
     FileTree.open_ { root := FileTreeItem.mk "r" ["r"] true true [],
                      selection := 0, open_ := false, copied := none } =
       FileTree.open_ { root := FileTreeItem.mk "r" ["r"] true true [],
                        selection := 0, open_ := false, copied := none } ∧
     FileTree.copied { root := FileTreeItem.mk "r" ["r"] true true [],
                       selection := 0, open_ := false, copied := none } =
       FileTree.copied { root := FileTreeItem.mk "r" ["r"] true true [],
                         selection := 0, open_ := false, copied := none }) :=
  ⟨by decide, c9_take_none_leaves_unchanged _ _ (by decide)⟩

/-- C1 counterexample: from a reachable state (new tree over a root
directory with a single file, then move_down), take_selected succeeds
but leaves the selection index at 1 while the flattening of the
resulting tree has length 1, so the selection is outside
the claimed range of zero to flattened length minus one. -/
theorem c1_counterexample :
    Reachable (fun p => if p = ["r"] then [⟨"a", false⟩] else [])
      (FileTree.move_down (FileTree.new
        (fun p => if p = ["r"] then [⟨"a", false⟩] else []) ["r"] "r")) ∧
    FileTree.take_selected (FileTree.move_down (FileTree.new
        (fun p => if p = ["r"] then [⟨"a", false⟩] else []) ["r"] "r")) =
      some (some (FileTreeItem.mk "a" ["r", "a"] false false []),
        { root := FileTreeItem.mk "r" ["r"] true true [],
          selection := 1, open_ := false, copied := none }) ∧
    (FileTree.flatten { root := FileTreeItem.mk "r" ["r"] true true [],
                        selection := 1, open_ := false, copied := none }).length ≤
      FileTree.selection { root := FileTreeItem.mk "r" ["r"] true true [],
                           selection := 1, open_ := false, copied := none } :=
  ⟨Reachable.down (Reachable.init ["r"] "r"), by decide, by decide⟩

/-- C1 amended: every public operation except take_selected keeps the
selection inside the range of valid flattening indices: whenever the
selection is strictly below the length of the flattening, it stays so
after move_up, move_down, goto_start, goto_end, expand or collapse of
the selected node, and reload; take_selected is excluded because it
removes the selected subtree without adjusting the index. -/
theorem c1_amended_ops_keep_selection_in_range (L : Lister) (cwd : FsPath)
    (rootName : String) (t : FileTree) (h : t.selection < t.flatten.length) :
    t.move_up.selection < t.move_up.flatten.length ∧
    t.move_down.selection < t.move_down.flatten.length ∧
    t.goto_start.selection < t.goto_start.flatten.length ∧
    t.goto_end.selection < t.goto_end.flatten.length ∧
    (t.treeExpand L).selection < (t.treeExpand L).flatten.length ∧
    t.treeCollapse.selection < t.treeCollapse.flatten.length ∧
    (t.reload L cwd rootName).selection < (t.reload L cwd rootName).flatten.length := by
  have h' : t.selection < (preorder t.root).length := by
    rwa [flatten_eq_preorder] at h
  have hp : 0 < (preorder t.root).length := preorder_length_pos t.root
  refine ⟨?_, ?_, ?_, ?_, ?_, ?_, ?_⟩
  · rw [flatten_eq_preorder]
    show t.selection - 1 < (preorder t.root).length
    omega
  · unfold FileTree.move_down
    split
    · next hc =>
      rw [flatten_eq_preorder] at hc ⊢
      show t.selection + 1 < (preorder t.root).length
      omega
    · next hc =>
      rw [flatten_eq_preorder]
      exact h'
  · rw [flatten_eq_preorder]
    show 0 < (preorder t.root).length
    exact hp
  · rw [flatten_eq_preorder]
    show t.flatten.length - 1 < (preorder t.root).length
    rw [flatten_eq_preorder]
    omega
  · have := treeExpand_sel_lt L t h'
    rwa [← flatten_eq_preorder] at this
  · have := treeCollapse_sel_lt t h'
    rwa [← flatten_eq_preorder] at this
  · rw [flatten_eq_preorder]
    show 0 < (preorder (FileTree.new L cwd rootName).root).length
    exact preorder_length_pos _

/-- Witness for C1 amended: the concrete one-file tree with selection
1 (in range, length 2); all seven operations keep the selection in
range. -/
theorem c1_amended_witness :
    FileTree.selection { root := FileTreeItem.mk "r" ["r"] true true [FileTreeItem.mk "a" ["r", "a"] false false []], selection := 1, open_ := false, copied := none } <
      (FileTree.flatten { root := FileTreeItem.mk "r" ["r"] true true [FileTreeItem.mk "a" ["r", "a"] false false []], selection := 1, open_ := false, copied := none }).length ∧
    ((FileTree.move_up { root := FileTreeItem.mk "r" ["r"] true true [FileTreeItem.mk "a" ["r", "a"] false false []], selection := 1, open_ := false, copied := none }).selection <
      (FileTree.move_up { root := FileTreeItem.mk "r" ["r"] true true [FileTreeItem.mk "a" ["r", "a"] false false []], selection := 1, open_ := false, copied := none }).flatten.length ∧
    (FileTree.move_down { root := FileTreeItem.mk "r" ["r"] true true [FileTreeItem.mk "a" ["r", "a"] false false []], selection := 1, open_ := false, copied := none }).selection <
      (FileTree.move_down { root := FileTreeItem.mk "r" ["r"] true true [FileTreeItem.mk "a" ["r", "a"] false false []], selection := 1, open_ := false, copied := none }).flatten.length ∧
    (FileTree.goto_start { root := FileTreeItem.mk "r" ["r"] true true [FileTreeItem.mk "a" ["r", "a"] false false []], selection := 1, open_ := false, copied := none }).selection <
      (FileTree.goto_start { root := FileTreeItem.mk "r" ["r"] true true [FileTreeItem.mk "a" ["r", "a"] false false []], selection := 1, open_ := false, copied := none }).flatten.length ∧
    (FileTree.goto_end { root := FileTreeItem.mk "r" ["r"] true true [FileTreeItem.mk "a" ["r", "a"] false false []], selection := 1, open_ := false, copied := none }).selection <
      (FileTree.goto_end { root := FileTreeItem.mk "r" ["r"] true true [FileTreeItem.mk "a" ["r", "a"] false false []], selection := 1, open_ := false, copied := none }).flatten.length ∧
    (FileTree.treeExpand (fun _ => []) { root := FileTreeItem.mk "r" ["r"] true true [FileTreeItem.mk "a" ["r", "a"] false false []], selection := 1, open_ := false, copied := none }).selection <
      (FileTree.treeExpand (fun _ => []) { root := FileTreeItem.mk "r" ["r"] true true [FileTreeItem.mk "a" ["r", "a"] false false []], selection := 1, open_ := false, copied := none }).flatten.length ∧
    (FileTree.treeCollapse { root := FileTreeItem.mk "r" ["r"] true true [FileTreeItem.mk "a" ["r", "a"] false false []], selection := 1, open_ := false, copied := none }).selection <
      (FileTree.treeCollapse { root := FileTreeItem.mk "r" ["r"] true true [FileTreeItem.mk "a" ["r", "a"] false false []], selection := 1, open_ := false, copied := none }).flatten.length ∧
    (FileTree.reload (fun _ => []) [] "x" { root := FileTreeItem.mk "r" ["r"] true true [FileTreeItem.mk "a" ["r", "a"] false false []], selection := 1, open_ := false, copied := none }).selection <
      (FileTree.reload (fun _ => []) [] "x" { root := FileTreeItem.mk "r" ["r"] true true [FileTreeItem.mk "a" ["r", "a"] false false []], selection := 1, open_ := false, copied := none }).flatten.length) :=
  ⟨by decide, c1_amended_ops_keep_selection_in_range (fun _ => []) [] "x" _ (by decide)⟩

/-- C7 counterexample: on a tree whose selection (1) already sits at
the length of the flattening (root only, length 1), move_down neither
increments the selection nor clamps it into the valid range: the
selection stays 1 while the flattening keeps length 1, so the result
is not min of selection plus one and length minus one, and lies
outside zero to length minus one. -/
theorem c7_counterexample :
    (FileTree.move_down { root := FileTreeItem.mk "r" ["r"] true true [], selection := 1, open_ := false, copied := none }).selection = 1 ∧
    (FileTree.move_down { root := FileTreeItem.mk "r" ["r"] true true [], selection := 1, open_ := false, copied := none }).flatten.length = 1 ∧
    (FileTree.move_down { root := FileTreeItem.mk "r" ["r"] true true [], selection := 1, open_ := false, copied := none }).selection ≠
      min (FileTree.selection { root := FileTreeItem.mk "r" ["r"] true true [], selection := 1, open_ := false, copied := none } + 1)
        ((FileTree.flatten { root := FileTreeItem.mk "r" ["r"] true true [], selection := 1, open_ := false, copied := none }).length - 1) := by
  refine ⟨by decide, by decide, by decide⟩

/-- C7 amended: for trees whose selection is in range, move_up is the
saturating decrement, move_down is the increment clamped to the last
valid index, and from any interior index (strictly between 0 and
length minus one) move_down followed by move_up restores the
selection. -/
theorem c7_amended_moves_clamped (t : FileTree) (h : t.selection < t.flatten.length) :
    t.move_up.selection = t.selection - 1 ∧
    t.move_down.selection = min (t.selection + 1) (t.flatten.length - 1) ∧
    (0 < t.selection → t.selection < t.flatten.length - 1 →
      t.move_down.move_up.selection = t.selection) := by
  refine ⟨rfl, ?_, ?_⟩
  · unfold FileTree.move_down
    split
    · next hc =>
      show t.selection + 1 = min (t.selection + 1) (t.flatten.length - 1)
      omega
    · next hc =>
      show t.selection = min (t.selection + 1) (t.flatten.length - 1)
      omega
  · intro h0 hlt
    unfold FileTree.move_down
    rw [if_pos hlt]
    show t.selection + 1 - 1 = t.selection
    omega

/-- Witness for C7 amended: a tree with three flattened entries and
interior selection 1: move_up gives 0, move_down clamps to 2, and
down then up restores 1. -/
theorem c7_amended_witness :
    FileTree.selection { root := FileTreeItem.mk "r" ["r"] true true [FileTreeItem.mk "a" ["r", "a"] false false [], FileTreeItem.mk "b" ["r", "b"] false false []], selection := 1, open_ := false, copied := none } <
      (FileTree.flatten { root := FileTreeItem.mk "r" ["r"] true true [FileTreeItem.mk "a" ["r", "a"] false false [], FileTreeItem.mk "b" ["r", "b"] false false []], selection := 1, open_ := false, copied := none }).length ∧
    ((FileTree.move_up { root := FileTreeItem.mk "r" ["r"] true true [FileTreeItem.mk "a" ["r", "a"] false false [], FileTreeItem.mk "b" ["r", "b"] false false []], selection := 1, open_ := false, copied := none }).selection =
        FileTree.selection { root := FileTreeItem.mk "r" ["r"] true true [FileTreeItem.mk "a" ["r", "a"] false false [], FileTreeItem.mk "b" ["r", "b"] false false []], selection := 1, open_ := false, copied := none } - 1 ∧
      (FileTree.move_down { root := FileTreeItem.mk "r" ["r"] true true [FileTreeItem.mk "a" ["r", "a"] false false [], FileTreeItem.mk "b" ["r", "b"] false false []], selection := 1, open_ := false, copied := none }).selection =
        min (FileTree.selection { root := FileTreeItem.mk "r" ["r"] true true [FileTreeItem.mk "a" ["r", "a"] false false [], FileTreeItem.mk "b" ["r", "b"] false false []], selection := 1, open_ := false, copied := none } + 1)
          ((FileTree.flatten { root := FileTreeItem.mk "r" ["r"] true true [FileTreeItem.mk "a" ["r", "a"] false false [], FileTreeItem.mk "b" ["r", "b"] false false []], selection := 1, open_ := false, copied := none }).length - 1) ∧
      (0 < FileTree.selection { root := FileTreeItem.mk "r" ["r"] true true [FileTreeItem.mk "a" ["r", "a"] false false [], FileTreeItem.mk "b" ["r", "b"] false false []], selection := 1, open_ := false, copied := none } →
        FileTree.selection { root := FileTreeItem.mk "r" ["r"] true true [FileTreeItem.mk "a" ["r", "a"] false false [], FileTreeItem.mk "b" ["r", "b"] false false []], selection := 1, open_ := false, copied := none } <
          (FileTree.flatten { root := FileTreeItem.mk "r" ["r"] true true [FileTreeItem.mk "a" ["r", "a"] false false [], FileTreeItem.mk "b" ["r", "b"] false false []], selection := 1, open_ := false, copied := none }).length - 1 →
        (FileTree.move_up (FileTree.move_down { root := FileTreeItem.mk "r" ["r"] true true [FileTreeItem.mk "a" ["r", "a"] false false [], FileTreeItem.mk "b" ["r", "b"] false false []], selection := 1, open_ := false, copied := none })).selection =
          FileTree.selection { root := FileTreeItem.mk "r" ["r"] true true [FileTreeItem.mk "a" ["r", "a"] false false [], FileTreeItem.mk "b" ["r", "b"] false false []], selection := 1, open_ := false, copied := none })) :=
  ⟨by decide, c7_amended_moves_clamped _ (by decide)⟩

/-- C3: on a tree whose selected node is not the root and whose parent
directory node is present (found by path lookup, with the selected
node among its children), take_selected succeeds and returns exactly
the selected node (so the returned path equals the pre-take selected
path); the resulting root is the surgical replacement that erases the
first child equal to the selected node at the parent and touches no
other node; the parent loses exactly one entry; and its remaining
children stay sorted whenever they were sorted. -/
theorem c3_take_selected_removes_one (t : FileTree) (sel p : FileTreeItem)
    (pp : FsPath) (hsel : t.selected = some sel) (hroot : sel ≠ t.root)
    (hpar : FsPath.parent sel.path = some pp)
    (hfind : t.find_with_path pp = some p) (hmem : sel ∈ p.children) :
    ∃ root', t.take_selected = some (some sel, { t with root := root' }) ∧
      replaceAt pp (fun q => q.withChildren (q.children.erase sel)) t.root = some root' ∧
      (p.children.erase sel).length + 1 = p.children.length ∧
      (p.children.Pairwise le → (p.children.erase sel).Pairwise le) := by
  obtain ⟨r, htake, hrep⟩ := takeAt_of_found t.root pp sel p hfind hmem
  refine ⟨r, ?_, hrep, erase_of_mem_eq_eraseIdx hmem,
    fun hp => hp.sublist (List.erase_sublist _ _)⟩
  unfold FileTree.take_selected
  simp only [hsel, hpar, htake]

/-- Witness for C3: concrete tree with root directory and two files;
the selected file a is removed from the root's children; hypotheses
checked by evaluation. -/
theorem c3_witness :
    FileTree.selected { root := FileTreeItem.mk "r" ["r"] true true [FileTreeItem.mk "a" ["r", "a"] false false [], FileTreeItem.mk "b" ["r", "b"] false false []], selection := 1, open_ := false, copied := none } = some (FileTreeItem.mk "a" ["r", "a"] false false []) ∧
    (FileTreeItem.mk "a" ["r", "a"] false false []) ≠ FileTree.root { root := FileTreeItem.mk "r" ["r"] true true [FileTreeItem.mk "a" ["r", "a"] false false [], FileTreeItem.mk "b" ["r", "b"] false false []], selection := 1, open_ := false, copied := none } ∧
    FsPath.parent (FileTreeItem.path (FileTreeItem.mk "a" ["r", "a"] false false [])) = some ["r"] ∧
    FileTree.find_with_path { root := FileTreeItem.mk "r" ["r"] true true [FileTreeItem.mk "a" ["r", "a"] false false [], FileTreeItem.mk "b" ["r", "b"] false false []], selection := 1, open_ := false, copied := none } ["r"] = some (FileTreeItem.mk "r" ["r"] true true [FileTreeItem.mk "a" ["r", "a"] false false [], FileTreeItem.mk "b" ["r", "b"] false false []]) ∧
    (FileTreeItem.mk "a" ["r", "a"] false false []) ∈ FileTreeItem.children (FileTreeItem.mk "r" ["r"] true true [FileTreeItem.mk "a" ["r", "a"] false false [], FileTreeItem.mk "b" ["r", "b"] false false []]) ∧
    (∃ root', FileTree.take_selected { root := FileTreeItem.mk "r" ["r"] true true [FileTreeItem.mk "a" ["r", "a"] false false [], FileTreeItem.mk "b" ["r", "b"] false false []], selection := 1, open_ := false, copied := none } =
        some (some (FileTreeItem.mk "a" ["r", "a"] false false []), { root := root', selection := 1, open_ := false, copied := none }) ∧
      replaceAt ["r"]
        (fun q => q.withChildren (q.children.erase (FileTreeItem.mk "a" ["r", "a"] false false [])))
        (FileTree.root { root := FileTreeItem.mk "r" ["r"] true true [FileTreeItem.mk "a" ["r", "a"] false false [], FileTreeItem.mk "b" ["r", "b"] false false []], selection := 1, open_ := false, copied := none }) = some root' ∧
      ((FileTreeItem.children (FileTreeItem.mk "r" ["r"] true true [FileTreeItem.mk "a" ["r", "a"] false false [], FileTreeItem.mk "b" ["r", "b"] false false []])).erase (FileTreeItem.mk "a" ["r", "a"] false false [])).length + 1 =
        (FileTreeItem.children (FileTreeItem.mk "r" ["r"] true true [FileTreeItem.mk "a" ["r", "a"] false false [], FileTreeItem.mk "b" ["r", "b"] false false []])).length ∧
      ((FileTreeItem.children (FileTreeItem.mk "r" ["r"] true true [FileTreeItem.mk "a" ["r", "a"] false false [], FileTreeItem.mk "b" ["r", "b"] false false []])).Pairwise le →
        ((FileTreeItem.children (FileTreeItem.mk "r" ["r"] true true [FileTreeItem.mk "a" ["r", "a"] false false [], FileTreeItem.mk "b" ["r", "b"] false false []])).erase (FileTreeItem.mk "a" ["r", "a"] false false [])).Pairwise le)) :=
  ⟨by decide, by decide, by decide, by decide, by decide,
    c3_take_selected_removes_one _ _ _ _ (by decide) (by decide) (by decide)
      (by decide) (by decide)⟩

/-- C4: assuming the external lister returns entries sorted under the
ordering rule, every children sequence of every node of every
reachable tree is sorted (consecutive children never compare gt under
the Ord comparator: directories before files, lowercased names
ascending); reachability covers construction, navigation, expand and
collapse of the selected node, take_selected and reload. -/
theorem c4_children_sorted (L : Lister) (hL : ∀ p, (L p).Pairwise entryLe)
    (t : FileTree) (ht : Reachable L t) :
    ∀ x ∈ preorder t.root, x.children.Pairwise le :=
  reachable_allSorted hL ht

/-- Witness for C4: a constant lister yielding a directory before a
file (sorted under the rule); the freshly constructed tree has every
children list sorted. -/
theorem c4_witness :
    AllSorted (FileTree.new (fun _ => [⟨"b", true⟩, ⟨"a", false⟩]) ["r"] "r").root :=
  c4_children_sorted _ (fun p => by decide) _ (Reachable.init ["r"] "r")

/-- C8: when the selected node is the root, or the selected node's
parent path cannot be located in the tree, take_selected fails the
operation: it either hits an unwrap panic (modelled by the outer none)
or returns the None value with the tree unchanged; in no case does it
detach and return a node. -/
theorem c8_take_selected_fails (t : FileTree)
    (h : t.selected = some t.root ∨
      ∃ sel pp, t.selected = some sel ∧ FsPath.parent sel.path = some pp ∧
        t.find_with_path pp = none) :
    t.take_selected = none ∨ t.take_selected = some (none, t) := by
  rcases h with hroot | ⟨sel, pp, hsel, hpar, hfind⟩
  · unfold FileTree.take_selected
    simp only [hroot]
    rcases hpar : FsPath.parent t.root.path with _ | pp
    · simp only [hpar]
      exact Or.inl (by trivial)
    · simp only [hpar]
      have hno : ∀ q ∈ preorder t.root, q.path = pp → t.root ∉ q.children := by
        intro q hq hqp hmem
        rw [preorder_def t.root] at hq
        rcases List.mem_cons.1 hq with rfl | hq2
        · exact parent_ne hpar hqp.symm
        · have h1 : sizeOf t.root < sizeOf q := sizeOf_child_lt hmem
          have h2 : sizeOf q ≤ sizeOf t.root.children :=
            sizeOf_mem_preorderList _ _ hq2
          have h3 : sizeOf t.root.children < sizeOf t.root := sizeOf_children_lt t.root
          omega
      rcases takeAt_no_equal_child t.root pp t.root hno with hnone | ⟨u, hu⟩
      · simp only [hnone]
        exact Or.inr (by trivial)
      · simp only [hu]
        exact Or.inl (by trivial)
  · unfold FileTree.take_selected
    simp only [hsel, hpar, (takeAt_none_iff t.root pp sel).2 hfind]
    exact Or.inr (by trivial)

/-- Witness for C8: a concrete tree whose selected node is the root;
take_selected fails without detaching anything. -/
theorem c8_witness :
    FileTree.selected { root := FileTreeItem.mk "r" ["r"] true true [], selection := 0, open_ := false, copied := none } = some (FileTreeItem.mk "r" ["r"] true true []) ∧
    (FileTree.take_selected { root := FileTreeItem.mk "r" ["r"] true true [], selection := 0, open_ := false, copied := none } = none ∨
      FileTree.take_selected { root := FileTreeItem.mk "r" ["r"] true true [], selection := 0, open_ := false, copied := none } = some (none, { root := FileTreeItem.mk "r" ["r"] true true [], selection := 0, open_ := false, copied := none })) :=
  ⟨by decide, c8_take_selected_fails _ (Or.inl (by decide))⟩
